import Mathlib

/-!
Verification development for the Arduino toolchain orchestration and
configuration reconciliation core (`src/arduino/arduino.ts`).

The stateful TypeScript class `ArduinoApp` is embedded shallowly:
pure data manipulation becomes Lean functions, filesystem and process
effects become explicit parameters and event traces, and the external
collaborators (Node's `path` module, `JSON.parse`/`JSON.stringify`,
`util.spawn`, the output channel and the notifier) are modelled as
parameters or as constructors of an event type.
-/

set_option autoImplicit false

namespace Arduino

/-! ### Model of Node's POSIX path handling

The source calls `path.resolve`, `path.normalize` and `path.join` from
Node's `path` module (an external collaborator).  These are modelled
character-by-character following Node's POSIX implementation: split on
`'/'`, drop empty and `"."` components, cancel `".."` against previous
components (keeping `".."` only when allowed above the root), re-join. -/

/-- Split a character list at every occurrence of `sep` (like
`String.prototype.split` on a one-character separator). -/
def splitOnChar (sep : Char) : List Char → List (List Char)
  | [] => [[]]
  | c :: rest =>
    match splitOnChar sep rest with
    | [] => [[]]
    | h :: t => if c = sep then [] :: h :: t else (c :: h) :: t

/-- One step of Node's `normalizeString`: process a single path component
against the stack of kept components (stored in reverse order). -/
def normStep (allowAboveRoot : Bool) (stack : List (List Char)) (comp : List Char) :
    List (List Char) :=
  if comp = [] ∨ comp = ['.'] then stack
  else if comp = ['.', '.'] then
    match stack with
    | [] => if allowAboveRoot then [['.', '.']] else []
    | top :: rest => if top = ['.', '.'] then comp :: top :: rest else rest
  else comp :: stack

/-- Node's `normalizeString`: the list of components of the normalized path. -/
def normalizeParts (allowAboveRoot : Bool) (cs : List Char) : List (List Char) :=
  ((splitOnChar '/' cs).foldl (normStep allowAboveRoot) []).reverse

/-- Join path components with `'/'` separators. -/
def joinParts : List (List Char) → List Char
  | [] => []
  | [p] => p
  | p :: q :: rest => p ++ '/' :: joinParts (q :: rest)

/-- Model of POSIX `path.normalize`. -/
def posixNormalize (p : String) : String :=
  let cs := p.toList
  if cs = [] then "."
  else
    let isAbs : Bool := cs.head? == some '/'
    let trailing : Bool := cs.getLast? == some '/'
    let core := joinParts (normalizeParts (!isAbs) cs)
    let core := if core.isEmpty && !isAbs then ['.'] else core
    let core := if !core.isEmpty && trailing then core ++ ['/'] else core
    String.mk (if isAbs then '/' :: core else core)

/-- Model of POSIX `path.resolve` with a single argument, relative to the
process working directory `cwd`. -/
def posixResolve (cwd p : String) : String :=
  let pcs := p.toList
  let pAbs : Bool := pcs.head? == some '/'
  let combined := if pAbs then pcs else cwd.toList ++ '/' :: pcs
  let isAbs : Bool := if pAbs then true else cwd.toList.head? == some '/'
  let core := joinParts (normalizeParts (!isAbs) combined)
  if isAbs then String.mk ('/' :: core)
  else if core.isEmpty then "." else String.mk core

/-- Model of POSIX `path.join` on two segments. -/
def posixJoin (a b : String) : String :=
  if a == "" && b == "" then "."
  else if a == "" then posixNormalize b
  else if b == "" then posixNormalize a
  else posixNormalize (a ++ "/" ++ b)

/-- The canonicalization applied to every include path by `addLibPath`:
`path.resolve(path.normalize(p))`, relative to working directory `cwd`. -/
def posixCanon (cwd : String) (p : String) : String :=
  posixResolve cwd (posixNormalize p)

/-! ### The configuration document (`c_cpp_properties.json`)

The source reads the document with `JSON.parse` and treats it as a plain
object.  The fields it looks at are typed below; every field it never
touches is kept in an `extra` association list of raw field name / raw
serialized value pairs, which the source passes through untouched. -/

/-- The `browse` sub-object of a configuration section. -/
structure Browse where
  limitSymbolsToIncludedHeaders : Option Bool
  extra : List (String × String)
  deriving DecidableEq, Repr

/-- One entry of the `configurations` array. -/
structure ConfigSection where
  name : Option String
  includePath : Option (List String)
  browse : Option Browse
  extra : List (String × String)
  deriving DecidableEq, Repr

/-- The whole configuration document. -/
structure ConfigDoc where
  configurations : Option (List ConfigSection)
  extra : List (String × String)
  deriving DecidableEq, Repr

/-! ### The include-path merge loop (`addLibPath`, lines 160-172)

`canon` abstracts `p => path.resolve(path.normalize(p))`; the concrete
instance used by the program is `posixCanon cwd`. -/

/-- One iteration of the `libPaths.forEach` loop: canonicalize the candidate,
skip it when some existing entry canonicalizes to the same string, otherwise
push the canonicalized candidate; a missing or empty `includePath` is first
replaced by `[]`. -/
def mergeOnePath (canon : String → String) (ip : Option (List String)) (c : String) :
    List String :=
  let c0 := canon c
  match ip with
  | some l => if l ≠ [] then (if l.any (fun e => canon e == c0) then l else l ++ [c0]) else [c0]
  | none => [c0]

/-- The whole `libPaths.forEach` loop over the section's `includePath`. -/
def mergeLibPaths (canon : String → String) (ip : Option (List String)) :
    List String → Option (List String)
  | [] => ip
  | c :: cs => mergeLibPaths canon (some (mergeOnePath canon ip c)) cs

/-! ### The section scan and the document transformation (lines 141-172) -/

/-- `configSection.browse = configSection.browse || {}` followed by
`configSection.browse.limitSymbolsToIncludedHeaders = false`. -/
def forceBrowse : Option Browse → Browse
  | none => { limitSymbolsToIncludedHeaders := some false, extra := [] }
  | some br => { br with limitSymbolsToIncludedHeaders := some false }

/-- The body of the `configurations.forEach` scan applied to one section:
a section whose `name` equals the current platform gets its `browse`
forced, any other section is left alone. -/
def applySectionScan (platform : String) (s : ConfigSection) : ConfigSection :=
  if s.name = some platform then { s with browse := some (forceBrowse s.browse) } else s

/-- The `configurations.forEach` scan over the whole array. -/
def scanConfigurations (platform : String) (l : List ConfigSection) : List ConfigSection :=
  l.map (applySectionScan platform)

/-- Merge the candidate paths into a section's `includePath`
(the `configSection.includePath.push` effects of the loop). -/
def mergeInto (canon : String → String) (libPaths : List String) (s : ConfigSection) :
    ConfigSection :=
  { s with includePath := mergeLibPaths canon s.includePath libPaths }

/-- Apply `f` to the last section whose `name` is the platform; in the
source the scan assigns `configSection = section` on every match, so the
last matching section is the one the merge loop mutates. -/
def updateLastMatching (platform : String) (f : ConfigSection → ConfigSection) :
    List ConfigSection → Option (List ConfigSection)
  | [] => none
  | s :: rest =>
    match updateLastMatching platform f rest with
    | some rest' => some (s :: rest')
    | none => if s.name = some platform then some (f s :: rest) else none

/-- The fresh section pushed when no section matches the platform. -/
def newConfigSection (platform : String) : ConfigSection :=
  { name := some platform
    includePath := some []
    browse := some { limitSymbolsToIncludedHeaders := some false, extra := [] }
    extra := [] }

/-- The pure document transformation performed by `addLibPath` between the
read and the write: default `configurations` to `[]`, run the scan, then
merge the candidate paths into the active (last matching) section, pushing
a fresh section first when none matches. -/
def addLibPathDoc (canon : String → String) (platform : String) (libPaths : List String)
    (doc : ConfigDoc) : ConfigDoc :=
  let confs := scanConfigurations platform (doc.configurations.getD [])
  match updateLastMatching platform (mergeInto canon libPaths) confs with
  | some confs' => { doc with configurations := some confs' }
  | none =>
    { doc with
      configurations := some (confs ++ [mergeInto canon libPaths (newConfigSection platform)]) }

/-- The file-level behaviour of `addLibPath`: a missing file starts from the
empty document `{}`; an existing file is parsed, and a parse failure raises
the user-notified `arduinoFileError` before the write is reached.  The
result is the new file contents paired with whether the error was raised;
`parse` and `serialize` model `util.tryParseJSON` and `JSON.stringify`. -/
def addLibPathFile (parse : String → Option ConfigDoc) (serialize : ConfigDoc → String)
    (canon : String → String) (platform : String) (libPaths : List String)
    (file : Option String) : Option String × Bool :=
  match file with
  | none => (some (serialize (addLibPathDoc canon platform libPaths ⟨none, []⟩)), false)
  | some text =>
    match parse text with
    | none => (some text, true)
    | some doc => (some (serialize (addLibPathDoc canon platform libPaths doc)), false)

/-- The `libPaths` selection at the top of `addLibPath`: a truthy explicit
argument is used on its own, otherwise the default package library paths. -/
def chooseLibPaths (libraryPath : String) (defaults : List String) : List String :=
  if libraryPath ≠ "" then [libraryPath] else defaults

/-- Keep the first occurrence of every string, preserving order (one step). -/
def dedupStep (acc : List String) (x : String) : List String :=
  if x ∈ acc then acc else acc ++ [x]

/-- First-occurrence deduplication of a list, preserving order: the shape a
freshly built `includePath` takes. -/
def dedupKeepFirst (l : List String) : List String :=
  l.foldl dedupStep []

/-- Per-section frame relation between a section of the input document and
the section at the same position of the output document: `name` and the
unknown `extra` fields are preserved; a matching section has its `browse`
forced and its `includePath` either untouched or merged; a non-matching
section is preserved verbatim. -/
def SectionFrame (canon : String → String) (p : String) (ps : List String)
    (s s' : ConfigSection) : Prop :=
  s'.name = s.name ∧ s'.extra = s.extra ∧
    (s.name = some p → s'.browse = some (forceBrowse s.browse) ∧
      (s'.includePath = s.includePath ∨
        s'.includePath = mergeLibPaths canon s.includePath ps)) ∧
    (s.name ≠ some p → s' = s)

/-! ### Process orchestration (verify / upload / install)

Side effects are recorded as an ordered event trace; `util.spawn` is an
external collaborator whose outcome is supplied in the environment as
`spawnResult` (success, or rejection carrying the process exit code). -/

/-- Observable side effects of the operations, in program order. -/
inductive AppEvent where
  | channelShow
  | channelStart (msg : String)
  | channelEnd (msg : String)
  | channelError (msg : String)
  | notifyUserError (errorId : String)
  | closeSerialMonitor (port : String)
  | spawn (command : String) (args : List String)
  deriving DecidableEq, Repr

/-- Recognize a process invocation in a trace. -/
def isSpawnEvent : AppEvent → Bool
  | .spawn _ _ => true
  | _ => false

/-- Number of process invocations in a trace. -/
def spawnCount (l : List AppEvent) : Nat :=
  (l.filter isSpawnEvent).length

/-- The currently selected board, as exposed by the external board manager:
`platform.package.name`, `platform.architecture`, `board` and the platform
root path. -/
structure BoardDescriptor where
  packageName : String
  architecture : String
  board : String
  rootBoardPath : String
  deriving DecidableEq, Repr

/-- The colon-joined target string built by `getBoardDescriptorString`. -/
def boardDescriptorString (b : BoardDescriptor) : String :=
  b.packageName ++ ":" ++ b.architecture ++ ":" ++ b.board

/-- `getBoardDescriptorString`: with no board selected it notifies the user
(`getBoardDescriptorError`) and returns `undefined`; otherwise it returns
the target string and performs no side effect. -/
def getBoardDescriptorString (currentBoard : Option BoardDescriptor) :
    Option String × List AppEvent :=
  match currentBoard with
  | none => (none, [.notifyUserError "getBoardDescriptorError"])
  | some b => (some (boardDescriptorString b), [])

/-- Ambient state read by `verify`/`upload`/`install`: the device context,
settings, workspace root, platform EOL, and the external process outcome. -/
structure InvokeEnv where
  currentBoard : Option BoardDescriptor
  sketch : String
  port : String
  rootPath : String
  commandPath : String
  logLevel : String
  eol : String
  spawnResult : Except Int Unit
  deriving Repr

/-- Argument vector for `verify`. -/
def verifyArgs (env : InvokeEnv) (bd : String) : List String :=
  let appPath := posixJoin env.rootPath env.sketch
  let args := ["--verify", "--board", bd, "--port", env.port, appPath]
  if env.logLevel = "verbose" then args ++ ["--verbose"] else args

/-- `verify()`: early return after the notification when no board is
selected; otherwise start, show, spawn, and handle the spawn outcome with
the attached fulfilled/rejected handlers, so the operation itself always
resolves. -/
def verifyRun (env : InvokeEnv) : List AppEvent × Except Int Unit :=
  match getBoardDescriptorString env.currentBoard with
  | (none, evs) => (evs, .ok ())
  | (some bd, evs) =>
    let tail :=
      match env.spawnResult with
      | .ok _ => [AppEvent.channelEnd ("Finished verify sketch - " ++ env.sketch ++ env.eol)]
      | .error code => [AppEvent.channelError ("Exit with code=" ++ toString code ++ env.eol)]
    (evs ++ [AppEvent.channelStart ("Verify sketch - " ++ env.sketch), AppEvent.channelShow,
        AppEvent.spawn env.commandPath (verifyArgs env bd)] ++ tail, .ok ())

/-- Argument vector for `upload`. -/
def uploadArgs (env : InvokeEnv) (bd : String) : List String :=
  let appPath := posixJoin env.rootPath env.sketch
  let args := ["--upload", "--board", bd, "--port", env.port, appPath]
  if env.logLevel = "verbose" then args ++ ["--verbose"] else args

/-- `upload()`: early return when no board is selected; otherwise show,
start, await the close of the serial monitor on the device port, then
spawn, with handlers attached as in `verify`, so it always resolves. -/
def uploadRun (env : InvokeEnv) : List AppEvent × Except Int Unit :=
  match getBoardDescriptorString env.currentBoard with
  | (none, evs) => (evs, .ok ())
  | (some bd, evs) =>
    let tail :=
      match env.spawnResult with
      | .ok _ => [AppEvent.channelEnd ("Uploaded the sketch: " ++ env.sketch ++ env.eol)]
      | .error code => [AppEvent.channelError ("Exit with code=" ++ toString code ++ env.eol)]
    (evs ++ [AppEvent.channelShow, AppEvent.channelStart ("Upload sketch - " ++ env.sketch),
        AppEvent.closeSerialMonitor env.port,
        AppEvent.spawn env.commandPath (uploadArgs env bd)] ++ tail, .ok ())

/-- `installBoard`: show, start, spawn `--install-boards`; the spawn is
awaited without a rejection handler, so a process failure rejects the whole
operation with the exit code and the end message is never emitted. -/
def installBoardRun (env : InvokeEnv) (packageName arch version : String) (_showOutput : Bool) :
    List AppEvent × Except Int Unit :=
  let pkgArg := packageName ++ ":" ++ arch ++ (if version ≠ "" then ":" ++ version else "")
  let head := [AppEvent.channelShow,
    AppEvent.channelStart ("Install package - " ++ packageName ++ "..."),
    AppEvent.spawn env.commandPath ["--install-boards", pkgArg]]
  match env.spawnResult with
  | .ok _ =>
    (head ++ [AppEvent.channelEnd ("Installed board package - " ++ packageName ++ env.eol)],
      .ok ())
  | .error code => (head, .error code)

/-- `installLibrary`: same shape as `installBoard` with `--install-library`. -/
def installLibraryRun (env : InvokeEnv) (libName version : String) (_showOutput : Bool) :
    List AppEvent × Except Int Unit :=
  let libArg := libName ++ (if version ≠ "" then ":" ++ version else "")
  let head := [AppEvent.channelShow, AppEvent.channelStart ("Install library - " ++ libName),
    AppEvent.spawn env.commandPath ["--install-library", libArg]]
  match env.spawnResult with
  | .ok _ =>
    (head ++ [AppEvent.channelEnd ("Installed libarray - " ++ libName ++ env.eol)], .ok ())
  | .error code => (head, .error code)

/-! ### The preference store (`preferences` getter and `loadPreferences`)

The preferences document is line-oriented `key=value` text matched with
the regular expression `(\S+)=(\S+)`; the file read may fail, which is
supplied as an `Except` parameter. -/

/-- An insertion-ordered string map modelling the JS `Map`. -/
abbrev PrefMap := List (String × String)

/-- JS `Map.prototype.set`: overwrite in place or append. -/
def prefSet (m : PrefMap) (k v : String) : PrefMap :=
  if m.any (fun kv => kv.1 == k) then m.map (fun kv => if kv.1 == k then (k, v) else kv)
  else m ++ [(k, v)]

/-- Split a character list at every character satisfying `p`. -/
def splitOnPred (p : Char → Bool) : List Char → List (List Char)
  | [] => [[]]
  | c :: rest =>
    match splitOnPred p rest with
    | [] => [[]]
    | h :: t => if p c then [] :: h :: t else (c :: h) :: t

/-- Maximal whitespace-free runs of a line (candidate regions for a
`(\S+)=(\S+)` match). -/
def wsTokens (cs : List Char) : List (List Char) :=
  (splitOnPred Char.isWhitespace cs).filter (· ≠ [])

/-- Split a token at the last `'='` that leaves a non-empty group on both
sides (the greedy backtracking behaviour of `(\S+)=(\S+)`); `acc` holds the
characters already passed. -/
def lastEqSplitAux : List Char → List Char → Option (List Char × List Char)
  | _, [] => none
  | acc, c :: rest =>
    match lastEqSplitAux (acc ++ [c]) rest with
    | some r => some r
    | none => if c = '=' ∧ acc ≠ [] ∧ rest ≠ [] then some (acc, rest) else none

/-- The two capture groups of `(\S+)=(\S+)` applied to one token. -/
def lastEqSplit (t : List Char) : Option (List Char × List Char) :=
  lastEqSplitAux [] t

/-- `lineRegex.exec(line)`: the first token carrying a match, split into
the two capture groups. -/
def execPrefLine (line : List Char) : Option (String × String) :=
  (wsTokens line).findSome? (fun t =>
    (lastEqSplit t).map (fun ab => (String.mk ab.1, String.mk ab.2)))

/-- The parsing loop of `loadPreferences`: split on newlines, skip empty
lines and lines without a match, `Map.set` each match. -/
def parsePreferences (raw : String) : PrefMap :=
  (splitOnChar '\x0a' raw.toList).foldl
    (fun m line =>
      if line ≠ [] then
        match execPrefLine line with
        | some kv => prefSet m kv.1 kv.2
        | none => m
      else m) []

/-- One access of the `preferences` getter: `st` is the `_preferences`
field before the access, `readResult` the outcome of reading
`preferences.txt`.  `loadPreferences` assigns a fresh empty map *before*
the read, so a failing read leaves the empty map in the field while the
exception propagates to the caller. -/
def preferencesGet (st : Option PrefMap) (readResult : Except Unit String) :
    Option PrefMap × Except Unit PrefMap :=
  match st with
  | some m => (some m, .ok m)
  | none =>
    match readResult with
    | .error _ => (some [], .error ())
    | .ok raw => (some (parsePreferences raw), .ok (parsePreferences raw))

/-! ### Concrete values used by witnesses and counterexamples -/

/-- A section named `Linux` with `browse.limitSymbolsToIncludedHeaders` set
to `true` and one existing include path. -/
def sectionA : ConfigSection :=
  { name := some "Linux", includePath := some ["/x"]
    browse := some { limitSymbolsToIncludedHeaders := some true, extra := [] }, extra := [] }

/-- A second section also named `Linux` (a duplicate platform name). -/
def sectionB : ConfigSection :=
  { name := some "Linux", includePath := some [], browse := none, extra := [] }

/-- A document holding two sections with the same platform name plus an
unknown top-level field. -/
def docAB : ConfigDoc :=
  { configurations := some [sectionA, sectionB], extra := [("version", "4")] }

/-- A concrete selected board. -/
def boardUno : BoardDescriptor :=
  { packageName := "arduino", architecture := "avr", board := "uno", rootBoardPath := "/pkgs" }

/-- An environment whose external process rejects with exit code 2. -/
def envFail : InvokeEnv :=
  { currentBoard := some boardUno, sketch := "app.ino", port := "COM3", rootPath := "/work"
    commandPath := "/ide/arduino", logLevel := "info", eol := "\n", spawnResult := .error 2 }

/-- The same environment with a successful external process. -/
def envOk : InvokeEnv := { envFail with spawnResult := .ok () }

/-- The same environment with no board selected. -/
def envNoBoard : InvokeEnv := { envFail with currentBoard := none }

/-! ### Lemmas about the include-path merge loop -/

theorem any_canon_iff (canon : String → String) (l : List String) (c0 : String) :
    l.any (fun e => canon e == c0) = true ↔ ∃ e ∈ l, canon e = c0 := by
  simp [List.any_eq_true]

theorem mergeOnePath_ne_nil (canon : String → String) (ip : Option (List String)) (c : String) :
    mergeOnePath canon ip c ≠ [] := by
  unfold mergeOnePath
  rcases ip with _ | l
  · simp
  · by_cases hl : l ≠ []
    · by_cases hc : l.any (fun e => canon e == canon c) = true <;> simp [hl, hc, hc]
    · simp [hl]

theorem mergeLibPaths_extend (canon : String → String) :
    ∀ (cs : List String) (l : List String), l ≠ [] →
      ∃ t, mergeLibPaths canon (some l) cs = some (l ++ t) ∧
        ∀ x ∈ t, ∃ c ∈ cs, x = canon c := by
  intro cs
  induction cs with
  | nil => intro l _; exact ⟨[], by simp [mergeLibPaths], by simp⟩
  | cons c cs ih =>
    intro l hl
    by_cases hc : l.any (fun e => canon e == canon c) = true
    · have hone : mergeOnePath canon (some l) c = l := by simp [mergeOnePath, hl, hc]
      obtain ⟨t, ht, hmem⟩ := ih l hl
      refine ⟨t, ?_, ?_⟩
      · simpa [mergeLibPaths, hone] using ht
      · intro x hx
        obtain ⟨c', hc', hx'⟩ := hmem x hx
        exact ⟨c', List.mem_cons_of_mem _ hc', hx'⟩
    · have hone : mergeOnePath canon (some l) c = l ++ [canon c] := by
        simp [mergeOnePath, hl, hc]
      obtain ⟨t, ht, hmem⟩ := ih (l ++ [canon c]) (by simp)
      refine ⟨[canon c] ++ t, ?_, ?_⟩
      · rw [mergeLibPaths, hone, ht, List.append_assoc]
      · intro x hx
        rcases List.mem_append.1 hx with hx | hx
        · rcases List.mem_singleton.1 hx with rfl
          exact ⟨c, List.mem_cons_self _ _, rfl⟩
        · obtain ⟨c', hc', hx'⟩ := hmem x hx
          exact ⟨c', List.mem_cons_of_mem _ hc', hx'⟩

theorem mergeLibPaths_skip (canon : String → String) :
    ∀ (cs : List String) (l : List String), l ≠ [] →
      (∀ c ∈ cs, ∃ e ∈ l, canon e = canon c) →
      mergeLibPaths canon (some l) cs = some l := by
  intro cs
  induction cs with
  | nil => intro l _ _; rfl
  | cons c cs ih =>
    intro l hl hcov
    have hc : l.any (fun e => canon e == canon c) = true :=
      (any_canon_iff canon l (canon c)).2 (hcov c (List.mem_cons_self _ _))
    have hone : mergeOnePath canon (some l) c = l := by simp [mergeOnePath, hl, hc]
    rw [mergeLibPaths, hone]
    exact ih l hl (fun c' hc' => hcov c' (List.mem_cons_of_mem _ hc'))

theorem mergeLibPaths_covers (canon : String → String)
    (hIdem : ∀ s, canon (canon s) = canon s) :
    ∀ (cs : List String) (ip : Option (List String)) (res : List String),
      mergeLibPaths canon ip cs = some res → ∀ c ∈ cs, ∃ e ∈ res, canon e = canon c := by
  intro cs
  induction cs with
  | nil => intro ip res _ c hc; exact absurd hc (List.not_mem_nil c)
  | cons c0 cs ih =>
    intro ip res hres c hc
    rw [mergeLibPaths] at hres
    set l1 := mergeOnePath canon ip c0 with hl1
    have hl1ne : l1 ≠ [] := mergeOnePath_ne_nil canon ip c0
    rcases List.mem_cons.1 hc with rfl | hc
    · have hcov1 : ∃ e ∈ l1, canon e = canon c := by
        rw [hl1]
        unfold mergeOnePath
        rcases ip with _ | l
        · exact ⟨canon c, by simp, hIdem c⟩
        · by_cases hl : l ≠ []
          · by_cases hany : l.any (fun e => canon e == canon c) = true
            · simpa [hl, hany] using (any_canon_iff canon l (canon c)).1 hany
            · exact ⟨canon c, by simp [hl, hany], hIdem c⟩
          · exact ⟨canon c, by simp [hl], hIdem c⟩
      obtain ⟨t, ht, _⟩ := mergeLibPaths_extend canon cs l1 hl1ne
      rw [ht] at hres
      obtain ⟨e, he, hce⟩ := hcov1
      obtain rfl : l1 ++ t = res := Option.some.inj hres
      exact ⟨e, List.mem_append_left _ he, hce⟩
    · exact ih (some l1) res hres c hc

theorem mergeLibPaths_idem (canon : String → String)
    (hIdem : ∀ s, canon (canon s) = canon s) (ip : Option (List String)) (cs : List String) :
    mergeLibPaths canon (mergeLibPaths canon ip cs) cs = mergeLibPaths canon ip cs := by
  rcases cs with _ | ⟨c0, cs⟩
  · rfl
  · have hl1ne : mergeOnePath canon ip c0 ≠ [] := mergeOnePath_ne_nil canon ip c0
    obtain ⟨t, ht, -⟩ := mergeLibPaths_extend canon cs (mergeOnePath canon ip c0) hl1ne
    have hfirst : mergeLibPaths canon ip (c0 :: cs) = some (mergeOnePath canon ip c0 ++ t) := by
      rw [mergeLibPaths]; exact ht
    have hresne : mergeOnePath canon ip c0 ++ t ≠ [] := by simp [hl1ne]
    have hcov : ∀ c ∈ c0 :: cs, ∃ e ∈ mergeOnePath canon ip c0 ++ t, canon e = canon c :=
      fun c hc => mergeLibPaths_covers canon hIdem (c0 :: cs) ip _ hfirst c hc
    rw [hfirst]
    exact mergeLibPaths_skip canon (c0 :: cs) _ hresne hcov

/-! ### Lemmas about first-occurrence deduplication -/

theorem dedupStep_sub (acc : List String) (x y : String) (h : y ∈ acc) :
    y ∈ dedupStep acc x := by
  unfold dedupStep
  by_cases hx : x ∈ acc <;> simp [hx, h]

theorem foldl_dedupStep_mem :
    ∀ (l acc : List String) (x : String), x ∈ acc ∨ x ∈ l → x ∈ l.foldl dedupStep acc := by
  intro l
  induction l with
  | nil => intro acc x h; simpa using h
  | cons y l ih =>
    intro acc x h
    rw [List.foldl_cons]
    rcases h with h | h
    · exact ih _ x (Or.inl (dedupStep_sub acc y x h))
    · rcases List.mem_cons.1 h with rfl | h
      · refine ih _ x (Or.inl ?_)
        unfold dedupStep
        by_cases hx : x ∈ acc <;> simp [hx]
      · exact ih _ x (Or.inr h)

theorem foldl_dedupStep_nodup :
    ∀ (l acc : List String), acc.Nodup → (l.foldl dedupStep acc).Nodup := by
  intro l
  induction l with
  | nil => intro acc h; simpa using h
  | cons y l ih =>
    intro acc h
    rw [List.foldl_cons]
    refine ih _ ?_
    unfold dedupStep
    by_cases hy : y ∈ acc
    · simpa [hy] using h
    · simp only [hy, if_neg]
      simpa [List.nodup_append] using ⟨h, hy⟩

theorem mergeLibPaths_eq_dedup_aux (canon : String → String)
    (hIdem : ∀ s, canon (canon s) = canon s) :
    ∀ (cs : List String) (acc : List String), acc ≠ [] → (∀ e ∈ acc, canon e = e) →
      mergeLibPaths canon (some acc) cs = some ((cs.map canon).foldl dedupStep acc) := by
  intro cs
  induction cs with
  | nil => intro acc _ _; rfl
  | cons c cs ih =>
    intro acc haccne hacc
    have hmem : (acc.any (fun e => canon e == canon c) = true) ↔ canon c ∈ acc := by
      rw [any_canon_iff]
      constructor
      · rintro ⟨e, he, hce⟩
        rw [hacc e he] at hce
        exact hce ▸ he
      · intro h; exact ⟨canon c, h, hacc _ h⟩
    rw [mergeLibPaths, List.map_cons, List.foldl_cons]
    by_cases hc : canon c ∈ acc
    · have hone : mergeOnePath canon (some acc) c = acc := by
        simp [mergeOnePath, haccne, hmem.2 hc]
      have hd : dedupStep acc (canon c) = acc := by simp [dedupStep, hc]
      rw [hone, hd]
      exact ih acc haccne hacc
    · have hone : mergeOnePath canon (some acc) c = acc ++ [canon c] := by
        have : ¬ acc.any (fun e => canon e == canon c) = true := fun h => hc (hmem.1 h)
        simp [mergeOnePath, haccne, this]
      have hd : dedupStep acc (canon c) = acc ++ [canon c] := by simp [dedupStep, hc]
      rw [hone, hd]
      refine ih (acc ++ [canon c]) (by simp) ?_
      intro e he
      rcases List.mem_append.1 he with he | he
      · exact hacc e he
      · rcases List.mem_singleton.1 he with rfl
        exact hIdem c

theorem mergeLibPaths_fresh_eq_dedup (canon : String → String)
    (hIdem : ∀ s, canon (canon s) = canon s) (c : String) (cs : List String)
    (ip : Option (List String)) (hip : ip = none ∨ ip = some []) :
    mergeLibPaths canon ip (c :: cs) = some (dedupKeepFirst ((c :: cs).map canon)) := by
  have hone : mergeOnePath canon ip c = [canon c] := by
    rcases hip with rfl | rfl <;> simp [mergeOnePath]
  rw [mergeLibPaths, hone, dedupKeepFirst, List.map_cons, List.foldl_cons]
  have hd : dedupStep [] (canon c) = [canon c] := by simp [dedupStep]
  rw [hd]
  exact mergeLibPaths_eq_dedup_aux canon hIdem cs [canon c] (by simp)
    (by intro e he; rcases List.mem_singleton.1 he with rfl; exact hIdem c)

/-! ### Lemmas about the section scan and the document transformation -/

theorem forceBrowse_limit (b : Option Browse) :
    (forceBrowse b).limitSymbolsToIncludedHeaders = some false := by
  rcases b with _ | b <;> rfl

theorem forceBrowse_extra (b : Browse) : (forceBrowse (some b)).extra = b.extra := rfl

theorem forceBrowse_idem (b : Option Browse) :
    forceBrowse (some (forceBrowse b)) = forceBrowse b := by
  rcases b with _ | b <;> rfl

theorem applySectionScan_name (p : String) (s : ConfigSection) :
    (applySectionScan p s).name = s.name := by
  unfold applySectionScan
  by_cases h : s.name = some p <;> simp [h]

theorem applySectionScan_includePath (p : String) (s : ConfigSection) :
    (applySectionScan p s).includePath = s.includePath := by
  unfold applySectionScan
  by_cases h : s.name = some p <;> simp [h]

theorem applySectionScan_extra (p : String) (s : ConfigSection) :
    (applySectionScan p s).extra = s.extra := by
  unfold applySectionScan
  by_cases h : s.name = some p <;> simp [h]

theorem applySectionScan_of_match (p : String) (s : ConfigSection) (h : s.name = some p) :
    applySectionScan p s = { s with browse := some (forceBrowse s.browse) } := by
  unfold applySectionScan
  simp [h]

theorem applySectionScan_of_nomatch (p : String) (s : ConfigSection) (h : s.name ≠ some p) :
    applySectionScan p s = s := by
  unfold applySectionScan
  simp [h]

theorem applySectionScan_idem (p : String) (s : ConfigSection) :
    applySectionScan p (applySectionScan p s) = applySectionScan p s := by
  by_cases h : s.name = some p
  · rw [applySectionScan_of_match p s h]
    rw [applySectionScan_of_match p _ (by simpa using h)]
    simp [forceBrowse_idem]
  · rw [applySectionScan_of_nomatch p s h, applySectionScan_of_nomatch p s h]

theorem mergeInto_name (canon : String → String) (ps : List String) (s : ConfigSection) :
    (mergeInto canon ps s).name = s.name := rfl

theorem mergeInto_browse (canon : String → String) (ps : List String) (s : ConfigSection) :
    (mergeInto canon ps s).browse = s.browse := rfl

theorem mergeInto_extra (canon : String → String) (ps : List String) (s : ConfigSection) :
    (mergeInto canon ps s).extra = s.extra := rfl

theorem scanConfigurations_append (p : String) (l1 l2 : List ConfigSection) :
    scanConfigurations p (l1 ++ l2) = scanConfigurations p l1 ++ scanConfigurations p l2 :=
  List.map_append _ l1 l2

theorem scanConfigurations_fixed_of_mem (p : String) (l : List ConfigSection)
    (x : ConfigSection) (hx : x ∈ scanConfigurations p l) : applySectionScan p x = x := by
  obtain ⟨y, _, rfl⟩ := List.mem_map.1 hx
  exact applySectionScan_idem p y

theorem scanConfigurations_fixed (p : String) (l : List ConfigSection)
    (h : ∀ x ∈ l, applySectionScan p x = x) : scanConfigurations p l = l := by
  unfold scanConfigurations
  rw [List.map_congr_left h]
  simp

theorem updateLastMatching_none_of (p : String) (f : ConfigSection → ConfigSection) :
    ∀ (l : List ConfigSection), (∀ s ∈ l, s.name ≠ some p) →
      updateLastMatching p f l = none := by
  intro l
  induction l with
  | nil => intro _; rfl
  | cons s rest ih =>
    intro h
    rw [updateLastMatching, ih (fun t ht => h t (List.mem_cons_of_mem _ ht))]
    simp [h s (List.mem_cons_self _ _)]

theorem updateLastMatching_eq_none_imp (p : String) (f : ConfigSection → ConfigSection) :
    ∀ (l : List ConfigSection), updateLastMatching p f l = none →
      ∀ s ∈ l, s.name ≠ some p := by
  intro l
  induction l with
  | nil => intro _ s hs; exact absurd hs (List.not_mem_nil s)
  | cons s0 rest ih =>
    intro h s hs
    rw [updateLastMatching] at h
    rcases hrest : updateLastMatching p f rest with _ | rest'
    · rw [hrest] at h
      rcases List.mem_cons.1 hs with rfl | hs
      · intro hname
        rw [if_pos hname] at h
        exact Option.noConfusion h
      · exact ih hrest s hs
    · rw [hrest] at h
      exact Option.noConfusion h

theorem updateLastMatching_of_decomp (p : String) (f : ConfigSection → ConfigSection)
    (s : ConfigSection) (post : List ConfigSection) (hs : s.name = some p)
    (hpost : ∀ t ∈ post, t.name ≠ some p) :
    ∀ pre, updateLastMatching p f (pre ++ s :: post) = some (pre ++ f s :: post) := by
  intro pre
  induction pre with
  | nil =>
    rw [List.nil_append, updateLastMatching, updateLastMatching_none_of p f post hpost]
    simp [hs]
  | cons a pre ih =>
    rw [List.cons_append, updateLastMatching, ih]
    simp

theorem updateLastMatching_some_decomp (p : String) (f : ConfigSection → ConfigSection) :
    ∀ (l l' : List ConfigSection), updateLastMatching p f l = some l' →
      ∃ pre s post, l = pre ++ s :: post ∧ s.name = some p ∧
        (∀ t ∈ post, t.name ≠ some p) ∧ l' = pre ++ f s :: post := by
  intro l
  induction l with
  | nil => intro l' h; exact Option.noConfusion h
  | cons s0 rest ih =>
    intro l' h
    rw [updateLastMatching] at h
    rcases hrest : updateLastMatching p f rest with _ | rest'
    · rw [hrest] at h
      by_cases hname : s0.name = some p
      · rw [if_pos hname] at h
        obtain rfl : f s0 :: rest = l' := Option.some.inj h
        exact ⟨[], s0, rest, rfl, hname, updateLastMatching_eq_none_imp p f rest hrest, rfl⟩
      · rw [if_neg hname] at h
        exact Option.noConfusion h
    · rw [hrest] at h
      obtain rfl : s0 :: rest' = l' := Option.some.inj h
      obtain ⟨pre, s, post, hrest_eq, hs, hpost, hrest'⟩ := ih rest' hrest
      exact ⟨s0 :: pre, s, post, by rw [hrest_eq, List.cons_append], hs,
        hpost, by rw [hrest', List.cons_append]⟩

/-- Characterization of `addLibPathDoc` when the document already holds a
matching section: the last matching section receives the merge, everything
else receives only the scan. -/
theorem addLibPathDoc_matched (canon : String → String) (p : String) (ps : List String)
    (doc : ConfigDoc) (pre post : List ConfigSection) (s : ConfigSection)
    (hdoc : doc.configurations = some (pre ++ s :: post))
    (hs : s.name = some p) (hpost : ∀ t ∈ post, t.name ≠ some p) :
    addLibPathDoc canon p ps doc =
      { doc with
        configurations := some (scanConfigurations p pre ++
          mergeInto canon ps (applySectionScan p s) :: scanConfigurations p post) } := by
  unfold addLibPathDoc
  rw [hdoc]
  have hscan : scanConfigurations p (pre ++ s :: post) =
      scanConfigurations p pre ++ applySectionScan p s :: scanConfigurations p post := by
    rw [scanConfigurations_append]
    rfl
  have hpost' : ∀ t ∈ scanConfigurations p post, t.name ≠ some p := by
    intro t ht
    obtain ⟨y, hy, rfl⟩ := List.mem_map.1 ht
    rw [applySectionScan_name]
    exact hpost y hy
  have hupd := updateLastMatching_of_decomp p (mergeInto canon ps) (applySectionScan p s)
    (scanConfigurations p post) (by rw [applySectionScan_name]; exact hs) hpost'
    (scanConfigurations p pre)
  simp only [Option.getD_some, hscan, hupd]

theorem scanConfigurations_cons (p : String) (a : ConfigSection) (l : List ConfigSection) :
    scanConfigurations p (a :: l) = applySectionScan p a :: scanConfigurations p l := rfl

/-- Unfolding equation of `addLibPathDoc` with the `let` expanded. -/
theorem addLibPathDoc_eq (canon : String → String) (p : String) (ps : List String)
    (doc : ConfigDoc) :
    addLibPathDoc canon p ps doc =
      match updateLastMatching p (mergeInto canon ps)
          (scanConfigurations p (doc.configurations.getD [])) with
      | some confs' => { doc with configurations := some confs' }
      | none =>
        { doc with
          configurations := some (scanConfigurations p (doc.configurations.getD []) ++
            [mergeInto canon ps (newConfigSection p)]) } := rfl

theorem applySectionScan_fixed_of_forced (p : String) (s : ConfigSection)
    (hname : s.name = some p) (hb : some (forceBrowse s.browse) = s.browse) :
    applySectionScan p s = s := by
  rw [applySectionScan_of_match p s hname, hb]

theorem browse_forced_of_fixed (p : String) (s : ConfigSection)
    (hname : s.name = some p) (hfix : applySectionScan p s = s) :
    some (forceBrowse s.browse) = s.browse := by
  rw [applySectionScan_of_match p s hname] at hfix
  exact congrArg ConfigSection.browse hfix

theorem mergeInto_idem (canon : String → String) (hIdem : ∀ s, canon (canon s) = canon s)
    (ps : List String) (s : ConfigSection) :
    mergeInto canon ps (mergeInto canon ps s) = mergeInto canon ps s := by
  show ({ s with
    includePath := mergeLibPaths canon (mergeLibPaths canon s.includePath ps) ps } :
      ConfigSection) = { s with includePath := mergeLibPaths canon s.includePath ps }
  rw [mergeLibPaths_idem canon hIdem s.includePath ps]

theorem mergeInto_scanned_fixed (canon : String → String) (p : String) (ps : List String)
    (s : ConfigSection) (hname : s.name = some p)
    (hb : some (forceBrowse s.browse) = s.browse) :
    applySectionScan p (mergeInto canon ps s) = mergeInto canon ps s := by
  refine applySectionScan_fixed_of_forced p _ ?_ ?_
  · rw [mergeInto_name]; exact hname
  · rw [mergeInto_browse]; exact hb

/-! ### Positional frame lemmas (what reconciliation can touch) -/

theorem sectionFrame_scan (canon : String → String) (p : String) (ps : List String)
    (s : ConfigSection) : SectionFrame canon p ps s (applySectionScan p s) := by
  by_cases h : s.name = some p
  · rw [applySectionScan_of_match p s h]
    exact ⟨rfl, rfl, fun _ => ⟨rfl, Or.inl rfl⟩, fun hn => absurd h hn⟩
  · rw [applySectionScan_of_nomatch p s h]
    exact ⟨rfl, rfl, fun hp => absurd hp h, fun _ => rfl⟩

theorem sectionFrame_scan_merged (canon : String → String) (p : String) (ps : List String)
    (s : ConfigSection) (h : s.name = some p) :
    SectionFrame canon p ps s (mergeInto canon ps (applySectionScan p s)) := by
  refine ⟨?_, ?_, fun _ => ⟨?_, Or.inr ?_⟩, fun hn => absurd h hn⟩
  · rw [mergeInto_name, applySectionScan_name]
  · rw [mergeInto_extra, applySectionScan_extra]
  · rw [mergeInto_browse, applySectionScan_of_match p s h]
  · show mergeLibPaths canon (applySectionScan p s).includePath ps = _
    rw [applySectionScan_includePath]

theorem forall2_frame_scan (canon : String → String) (p : String) (ps : List String) :
    ∀ l, List.Forall₂ (SectionFrame canon p ps) l (scanConfigurations p l) := by
  intro l
  induction l with
  | nil => exact List.Forall₂.nil
  | cons a l ih =>
    rw [scanConfigurations_cons]
    exact List.Forall₂.cons (sectionFrame_scan canon p ps a) ih

theorem forall2_frame_matched (canon : String → String) (p : String) (ps : List String) :
    ∀ (l l2 : List ConfigSection),
      updateLastMatching p (mergeInto canon ps) (scanConfigurations p l) = some l2 →
      List.Forall₂ (SectionFrame canon p ps) l l2 := by
  intro l
  induction l with
  | nil => intro l2 h; exact Option.noConfusion h
  | cons a l ih =>
    intro l2 h
    rw [scanConfigurations_cons, updateLastMatching] at h
    rcases hrest : updateLastMatching p (mergeInto canon ps) (scanConfigurations p l)
      with _ | r'
    · rw [hrest] at h
      by_cases hname : (applySectionScan p a).name = some p
      · rw [if_pos hname] at h
        obtain rfl : mergeInto canon ps (applySectionScan p a) :: scanConfigurations p l = l2 :=
          Option.some.inj h
        have haname : a.name = some p := by rwa [applySectionScan_name] at hname
        exact List.Forall₂.cons (sectionFrame_scan_merged canon p ps a haname)
          (forall2_frame_scan canon p ps l)
      · rw [if_neg hname] at h
        exact Option.noConfusion h
    · rw [hrest] at h
      obtain rfl : applySectionScan p a :: r' = l2 := Option.some.inj h
      exact List.Forall₂.cons (sectionFrame_scan canon p ps a) (ih r' hrest)

theorem scan_getElem_includePath (p : String) (l : List ConfigSection) (i : Nat) :
    ((scanConfigurations p l)[i]?).map ConfigSection.includePath =
      (l[i]?).map ConfigSection.includePath := by
  cases hx : l[i]? with
  | none => simp [scanConfigurations, List.getElem?_map, hx]
  | some s => simp [scanConfigurations, List.getElem?_map, hx, applySectionScan_includePath]

/-- At every position other than the merge target's, the output of the
scan-plus-single-replacement keeps the input's `includePath`. -/
theorem frame_getElem_ne_target (p : String) (pre post : List ConfigSection)
    (s b : ConfigSection) :
    ∀ i, i ≠ pre.length →
      ((scanConfigurations p pre ++ b :: scanConfigurations p post)[i]?).map
          ConfigSection.includePath =
        ((pre ++ s :: post)[i]?).map ConfigSection.includePath := by
  intro i hi
  have hlen : (scanConfigurations p pre).length = pre.length := by
    simp [scanConfigurations]
  rcases Nat.lt_or_ge i pre.length with hlt | hge
  · rw [List.getElem?_append_left (by rw [hlen]; exact hlt), List.getElem?_append_left hlt]
    exact scan_getElem_includePath p pre i
  · obtain ⟨k, hk⟩ : ∃ k, i - pre.length = k + 1 := by
      have : pre.length < i := lt_of_le_of_ne hge (Ne.symm hi)
      exact ⟨i - pre.length - 1, by omega⟩
    rw [List.getElem?_append_right (by rw [hlen]; exact hge),
      List.getElem?_append_right hge, hlen, hk, List.getElem?_cons_succ,
      List.getElem?_cons_succ]
    exact scan_getElem_includePath p post k

/-- When the scanned array holds a match, the raw array decomposes around
the last matching section, and the output is the scan everywhere except at
that one position, which additionally receives the merge. -/
theorem addLibPath_decomp_matched (canon : String → String) (p : String) (ps : List String) :
    ∀ (l l2 : List ConfigSection),
      updateLastMatching p (mergeInto canon ps) (scanConfigurations p l) = some l2 →
      ∃ pre s post, l = pre ++ s :: post ∧ s.name = some p ∧
        (∀ t ∈ post, t.name ≠ some p) ∧
        l2 = scanConfigurations p pre ++
          mergeInto canon ps (applySectionScan p s) :: scanConfigurations p post := by
  intro l
  induction l with
  | nil => intro l2 h; exact Option.noConfusion h
  | cons a l ih =>
    intro l2 h
    rw [scanConfigurations_cons, updateLastMatching] at h
    rcases hrest : updateLastMatching p (mergeInto canon ps) (scanConfigurations p l)
      with _ | r'
    · rw [hrest] at h
      by_cases hname : (applySectionScan p a).name = some p
      · rw [if_pos hname] at h
        obtain rfl : mergeInto canon ps (applySectionScan p a) :: scanConfigurations p l = l2 :=
          Option.some.inj h
        have haname : a.name = some p := by rwa [applySectionScan_name] at hname
        have hnom : ∀ t ∈ l, t.name ≠ some p := by
          intro t ht htname
          refine updateLastMatching_eq_none_imp p (mergeInto canon ps) _ hrest
            (applySectionScan p t) (List.mem_map.2 ⟨t, ht, rfl⟩) ?_
          rw [applySectionScan_name]
          exact htname
        exact ⟨[], a, l, rfl, haname, hnom, rfl⟩
      · rw [if_neg hname] at h
        exact Option.noConfusion h
    · rw [hrest] at h
      obtain rfl : applySectionScan p a :: r' = l2 := Option.some.inj h
      obtain ⟨pre, s, post, hdec, hs, hpost, hr'⟩ := ih r' hrest
      refine ⟨a :: pre, s, post, by rw [List.cons_append, hdec], hs, hpost, ?_⟩
      rw [scanConfigurations_cons, List.cons_append, hr']

/-- Unfolding equation of `addLibPathDoc` on a document with an updated
`configurations` field. -/
theorem addLibPathDoc_update (canon : String → String) (p : String) (ps : List String)
    (doc : ConfigDoc) (L : List ConfigSection) :
    addLibPathDoc canon p ps { doc with configurations := some L } =
      match updateLastMatching p (mergeInto canon ps) (scanConfigurations p L) with
      | some confs' => { doc with configurations := some confs' }
      | none =>
        { doc with
          configurations := some (scanConfigurations p L ++
            [mergeInto canon ps (newConfigSection p)]) } := rfl

/-- C1: Reconciliation is idempotent.  For every candidate path set and
every starting configuration document, running the `addLibPath` document
transformation a second time with the same path set leaves the document —
in particular the active section's `includePath` array — exactly equal to
what the first run produced, for any idempotent path canonicalization
(which `resolve ∘ normalize` is). -/
theorem addLibPath_reconcile_idempotent (canon : String → String) (p : String)
    (ps : List String) (doc : ConfigDoc) (hIdem : ∀ s, canon (canon s) = canon s) :
    addLibPathDoc canon p ps (addLibPathDoc canon p ps doc) =
      addLibPathDoc canon p ps doc := by
  rcases h : updateLastMatching p (mergeInto canon ps)
      (scanConfigurations p (doc.configurations.getD [])) with _ | confs'
  · have h1 : addLibPathDoc canon p ps doc =
        { doc with
          configurations := some (scanConfigurations p (doc.configurations.getD []) ++
            [mergeInto canon ps (newConfigSection p)]) } := by
      rw [addLibPathDoc_eq, h]
    have hnsname : (mergeInto canon ps (newConfigSection p)).name = some p := rfl
    have hnsfix : applySectionScan p (mergeInto canon ps (newConfigSection p)) =
        mergeInto canon ps (newConfigSection p) :=
      mergeInto_scanned_fixed canon p ps (newConfigSection p) rfl rfl
    have hscan2 : scanConfigurations p
        (scanConfigurations p (doc.configurations.getD []) ++
          [mergeInto canon ps (newConfigSection p)]) =
        scanConfigurations p (doc.configurations.getD []) ++
          [mergeInto canon ps (newConfigSection p)] := by
      rw [scanConfigurations_append,
        scanConfigurations_fixed p _ (fun x hx => scanConfigurations_fixed_of_mem p _ x hx),
        scanConfigurations_cons, hnsfix]
      rfl
    have hupd2 := updateLastMatching_of_decomp p (mergeInto canon ps)
      (mergeInto canon ps (newConfigSection p)) [] hnsname
      (fun t ht => absurd ht (List.not_mem_nil t))
      (scanConfigurations p (doc.configurations.getD []))
    rw [h1, addLibPathDoc_update, hscan2, hupd2,
      mergeInto_idem canon hIdem ps (newConfigSection p)]
  · obtain ⟨pre, m, post, hdecomp, hmname, hmpost, hconfs'⟩ :=
      updateLastMatching_some_decomp p (mergeInto canon ps) _ confs' h
    have h1 : addLibPathDoc canon p ps doc = { doc with configurations := some confs' } := by
      rw [addLibPathDoc_eq, h]
    have hmemfix : ∀ x ∈ pre ++ m :: post, applySectionScan p x = x := by
      intro x hx
      refine scanConfigurations_fixed_of_mem p (doc.configurations.getD []) x ?_
      rw [hdecomp]; exact hx
    have hmfix : applySectionScan p m = m :=
      hmemfix m (List.mem_append_right _ (List.mem_cons_self _ _))
    have hb : some (forceBrowse m.browse) = m.browse := browse_forced_of_fixed p m hmname hmfix
    have hprefix : scanConfigurations p pre = pre :=
      scanConfigurations_fixed p pre (fun x hx => hmemfix x (List.mem_append_left _ hx))
    have hpostfix : scanConfigurations p post = post :=
      scanConfigurations_fixed p post (fun x hx =>
        hmemfix x (List.mem_append_right _ (List.mem_cons_of_mem _ hx)))
    have hgmfix : applySectionScan p (mergeInto canon ps m) = mergeInto canon ps m :=
      mergeInto_scanned_fixed canon p ps m hmname hb
    have hscan2 : scanConfigurations p (pre ++ mergeInto canon ps m :: post) =
        pre ++ mergeInto canon ps m :: post := by
      rw [scanConfigurations_append, scanConfigurations_cons, hprefix, hpostfix, hgmfix]
    have hgmname : (mergeInto canon ps m).name = some p := by
      rw [mergeInto_name]; exact hmname
    have hupd2 := updateLastMatching_of_decomp p (mergeInto canon ps)
      (mergeInto canon ps m) post hgmname hmpost pre
    rw [h1, hconfs', addLibPathDoc_update, hscan2, hupd2, mergeInto_idem canon hIdem ps m]

/-- Witness for C1 at a concrete canonicalization, path set and document. -/
theorem addLibPath_reconcile_idempotent_witness :
    (∀ s : String, (fun x : String => x) ((fun x : String => x) s) = (fun x : String => x) s) ∧
    addLibPathDoc (fun x : String => x) "Linux" ["/a", "/b"]
        (addLibPathDoc (fun x : String => x) "Linux" ["/a", "/b"] docAB) =
      addLibPathDoc (fun x : String => x) "Linux" ["/a", "/b"] docAB :=
  ⟨fun _ => rfl,
    addLibPath_reconcile_idempotent (fun x : String => x) "Linux" ["/a", "/b"] docAB
      (fun _ => rfl)⟩

/-- C2: if the configuration file exists but its contents do not parse as
JSON, `addLibPath` raises the user-notified `arduinoFileError` and the
file's bytes are left completely unchanged — the write step is never
reached. -/
theorem addLibPath_unparsable_file (parse : String → Option ConfigDoc)
    (serialize : ConfigDoc → String) (canon : String → String) (p : String)
    (ps : List String) (text : String) (h : parse text = none) :
    addLibPathFile parse serialize canon p ps (some text) = (some text, true) := by
  show (match parse text with
    | none => (some text, true)
    | some doc => (some (serialize (addLibPathDoc canon p ps doc)), false)) = (some text, true)
  rw [h]

/-- Witness for C2 with a concrete parser that fails on the given text. -/
theorem addLibPath_unparsable_file_witness :
    ((fun _ : String => (none : Option ConfigDoc)) "not json" = none) ∧
    addLibPathFile (fun _ => none) (fun _ => "") (fun x => x) "Linux" ["/a"]
        (some "not json") = (some "not json", true) :=
  ⟨rfl, addLibPath_unparsable_file _ _ _ _ _ _ rfl⟩

/-- C3 counterexample: with two sections carrying the platform name, the
candidate paths are merged into the second (last) matching section, yet the
first section — which is not the merge target — also has its
`browse.limitSymbolsToIncludedHeaders` overwritten from `true` to `false`;
so reconciliation modifies a section other than the active one, refuting
the claim that only the active section is modified. -/
theorem addLibPath_frame_claim_cex :
    addLibPathDoc (posixCanon "/cwd") "Linux" ["/y"] docAB =
      { configurations := some
          [{ name := some "Linux", includePath := some ["/x"]
             browse := some { limitSymbolsToIncludedHeaders := some false, extra := [] }
             extra := [] },
           { name := some "Linux", includePath := some ["/y"]
             browse := some { limitSymbolsToIncludedHeaders := some false, extra := [] }
             extra := [] }]
        extra := [("version", "4")] } ∧
    ({ name := some "Linux", includePath := some ["/x"]
       browse := some { limitSymbolsToIncludedHeaders := some false, extra := [] }
       extra := [] } : ConfigSection) ≠ sectionA :=
  ⟨rfl, by decide⟩

/-- C3 (amended): reconciliation preserves every top-level field other than
`configurations`, and relates input to output sections positionally through
`SectionFrame`: `name` and unknown fields are preserved everywhere,
sections not named for the platform are preserved verbatim, and every
matching section has its `browse` forced.  When a matching section exists,
the input decomposes around the **last** matching section (no later section
matches), the output is exactly the scan with the merge applied at that one
position, and at every other position `includePath` is untouched — so only
the active (last matching) section's `includePath` is merged.  When no
section matches, the only addition is the single fresh platform section
appended at the end, with every original position's `includePath`
untouched. -/
theorem addLibPath_frame (canon : String → String) (p : String) (ps : List String)
    (doc : ConfigDoc) :
    (addLibPathDoc canon p ps doc).extra = doc.extra ∧
    ∃ l2, (addLibPathDoc canon p ps doc).configurations = some l2 ∧
      ((∃ pre s post,
          doc.configurations.getD [] = pre ++ s :: post ∧
          s.name = some p ∧
          (∀ t ∈ post, t.name ≠ some p) ∧
          l2 = scanConfigurations p pre ++
            mergeInto canon ps (applySectionScan p s) :: scanConfigurations p post ∧
          List.Forall₂ (SectionFrame canon p ps) (doc.configurations.getD []) l2 ∧
          ∀ i, i ≠ pre.length →
            (l2[i]?).map ConfigSection.includePath =
              ((doc.configurations.getD [])[i]?).map ConfigSection.includePath) ∨
        (l2 = scanConfigurations p (doc.configurations.getD []) ++
            [mergeInto canon ps (newConfigSection p)] ∧
          List.Forall₂ (SectionFrame canon p ps) (doc.configurations.getD [])
            (scanConfigurations p (doc.configurations.getD [])) ∧
          (∀ s ∈ doc.configurations.getD [], s.name ≠ some p) ∧
          ∀ i, i < (doc.configurations.getD []).length →
            (l2[i]?).map ConfigSection.includePath =
              ((doc.configurations.getD [])[i]?).map ConfigSection.includePath)) := by
  rcases h : updateLastMatching p (mergeInto canon ps)
      (scanConfigurations p (doc.configurations.getD [])) with _ | confs'
  · rw [addLibPathDoc_eq, h]
    refine ⟨rfl, _, rfl, Or.inr ⟨rfl, forall2_frame_scan canon p ps _, ?_, ?_⟩⟩
    · intro s hs hname
      refine updateLastMatching_eq_none_imp p (mergeInto canon ps) _ h
        (applySectionScan p s) (List.mem_map.2 ⟨s, hs, rfl⟩) ?_
      rw [applySectionScan_name]
      exact hname
    · intro i hi
      have hlen : i < (scanConfigurations p (doc.configurations.getD [])).length := by
        simpa [scanConfigurations] using hi
      rw [List.getElem?_append_left hlen]
      exact scan_getElem_includePath p _ i
  · obtain ⟨pre, s, post, hdec, hs, hpost, hl2⟩ :=
      addLibPath_decomp_matched canon p ps _ confs' h
    rw [addLibPathDoc_eq, h]
    refine ⟨rfl, confs', rfl, Or.inl ⟨pre, s, post, hdec, hs, hpost, hl2,
      forall2_frame_matched canon p ps _ confs' h, ?_⟩⟩
    intro i hi
    rw [hl2, hdec]
    exact frame_getElem_ne_target p pre post s _ i hi

/-- C4: include-path deduplication is normalization-aware and
order-preserving: a candidate whose canonical form already appears among
the canonicalized entries is skipped, otherwise its canonical form is
appended at the end; the existing entries always remain, in order, a
leading segment of the result.  Concretely, `includePath ["/a"]` with
candidates `["/a", "/b"]` yields `["/a", "/b"]`, and the candidates
`"./lib"` and `"/cwd/lib"` under working directory `/cwd` deduplicate to a
single entry. -/
theorem addLibPath_dedup (canon : String → String) (l : List String) (c : String)
    (cs : List String) (hl : l ≠ []) :
    ((∃ e ∈ l, canon e = canon c) → mergeLibPaths canon (some l) [c] = some l) ∧
    (¬ (∃ e ∈ l, canon e = canon c) →
      mergeLibPaths canon (some l) [c] = some (l ++ [canon c])) ∧
    (∃ t, mergeLibPaths canon (some l) cs = some (l ++ t)) ∧
    mergeLibPaths (posixCanon "/cwd") (some ["/a"]) ["/a", "/b"] = some ["/a", "/b"] ∧
    mergeLibPaths (posixCanon "/cwd") none ["./lib", "/cwd/lib"] = some ["/cwd/lib"] := by
  refine ⟨?_, ?_, ?_, by decide, by decide⟩
  · intro hcov
    refine mergeLibPaths_skip canon [c] l hl ?_
    intro c' hc'
    rcases List.mem_singleton.1 hc' with rfl
    exact hcov
  · intro hcov
    have hany : ¬ l.any (fun e => canon e == canon c) = true := fun hx =>
      hcov ((any_canon_iff canon l (canon c)).1 hx)
    have hone : mergeOnePath canon (some l) c = l ++ [canon c] := by
      simp [mergeOnePath, hl, hany]
    rw [mergeLibPaths, hone, mergeLibPaths]
  · obtain ⟨t, ht, -⟩ := mergeLibPaths_extend canon cs l hl
    exact ⟨t, ht⟩

/-- Witness for C4 at a concrete non-empty `includePath`. -/
theorem addLibPath_dedup_witness :
    (["/a"] : List String) ≠ [] ∧
    ((∃ e ∈ ["/a"], posixCanon "/cwd" e = posixCanon "/cwd" "/a") →
      mergeLibPaths (posixCanon "/cwd") (some ["/a"]) ["/a"] = some ["/a"]) :=
  ⟨by decide, (addLibPath_dedup (posixCanon "/cwd") ["/a"] "/a" ["/b"] (by decide)).1⟩

/-- C5: when no board is selected, resolving the target string yields no
descriptor together with the `getBoardDescriptorError` user notification,
and both `verify` and `upload` return resolved having performed no process
invocation. -/
theorem verify_upload_no_board (env : InvokeEnv) (h : env.currentBoard = none) :
    getBoardDescriptorString env.currentBoard =
      (none, [AppEvent.notifyUserError "getBoardDescriptorError"]) ∧
    verifyRun env = ([AppEvent.notifyUserError "getBoardDescriptorError"], Except.ok ()) ∧
    uploadRun env = ([AppEvent.notifyUserError "getBoardDescriptorError"], Except.ok ()) ∧
    spawnCount (verifyRun env).1 = 0 ∧ spawnCount (uploadRun env).1 = 0 := by
  have h1 : getBoardDescriptorString env.currentBoard =
      (none, [AppEvent.notifyUserError "getBoardDescriptorError"]) := by
    rw [h]
    rfl
  have h2 : verifyRun env =
      ([AppEvent.notifyUserError "getBoardDescriptorError"], Except.ok ()) := by
    unfold verifyRun
    rw [h1]
  have h3 : uploadRun env =
      ([AppEvent.notifyUserError "getBoardDescriptorError"], Except.ok ()) := by
    unfold uploadRun
    rw [h1]
  exact ⟨h1, h2, h3, by rw [h2]; rfl, by rw [h3]; rfl⟩

/-- Witness for C5 at a concrete environment with no board selected. -/
theorem verify_upload_no_board_witness :
    envNoBoard.currentBoard = none ∧
    verifyRun envNoBoard =
      ([AppEvent.notifyUserError "getBoardDescriptorError"], Except.ok ()) :=
  ⟨rfl, (verify_upload_no_board envNoBoard rfl).2.1⟩

/-- C6 counterexample: in `envFail` a board is selected and the external
process exits with code 2; `verify` performs the invocation, yet resolves
successfully — the rejected outcome is handled by the attached rejection
handler and is not propagated to the caller, refuting the claim that every
install/verify/upload operation propagates the rejection. -/
theorem process_failure_not_propagated_cex :
    (verifyRun envFail).1.any isSpawnEvent = true ∧
    (verifyRun envFail).2 = Except.ok () ∧
    envFail.spawnResult = Except.error 2 :=
  ⟨rfl, rfl, rfl⟩

/-- C6 (amended): a non-zero process exit or launch failure rejects the
install operations with the exit code (propagated to the caller); `verify`
and `upload` log `Exit with code=<n>` on the error channel and resolve
successfully; and every operation invokes the external process exactly
once per run — no automatic retry. -/
theorem process_failure_semantics (env : InvokeEnv) (code : Int)
    (pn arch ver ln : String) (so : Bool) (b : BoardDescriptor)
    (hsp : env.spawnResult = .error code) (hb : env.currentBoard = some b) :
    (installBoardRun env pn arch ver so).2 = .error code ∧
    (installLibraryRun env ln ver so).2 = .error code ∧
    (verifyRun env).2 = .ok () ∧
    (uploadRun env).2 = .ok () ∧
    AppEvent.channelError ("Exit with code=" ++ toString code ++ env.eol) ∈
      (verifyRun env).1 ∧
    AppEvent.channelError ("Exit with code=" ++ toString code ++ env.eol) ∈
      (uploadRun env).1 ∧
    spawnCount (installBoardRun env pn arch ver so).1 = 1 ∧
    spawnCount (installLibraryRun env ln ver so).1 = 1 ∧
    spawnCount (verifyRun env).1 = 1 ∧
    spawnCount (uploadRun env).1 = 1 := by
  have hbd : getBoardDescriptorString env.currentBoard =
      (some (boardDescriptorString b), []) := by
    rw [hb]
    rfl
  unfold installBoardRun installLibraryRun verifyRun uploadRun
  rw [hsp, hbd]
  refine ⟨rfl, rfl, rfl, rfl, ?_, ?_, rfl, rfl, rfl, rfl⟩ <;> simp

/-- Witness for C6 (amended) at a concrete failing environment. -/
theorem process_failure_semantics_witness :
    envFail.spawnResult = Except.error 2 ∧ envFail.currentBoard = some boardUno ∧
    (installBoardRun envFail "esp32" "esp32" "" true).2 = Except.error 2 :=
  ⟨rfl, rfl,
    (process_failure_semantics envFail 2 "esp32" "esp32" "" "Servo" true boardUno rfl rfl).1⟩

/-- C7 counterexample: with an unreadable preferences document, the first
access surfaces the error, but the empty map assigned before the failed
read stays cached in the field, so the second access silently yields the
empty preference map with no error — refuting the claim that no access
silently yields an empty map. -/
theorem preferences_silent_empty_cex :
    (preferencesGet none (Except.error ())).2 = Except.error () ∧
    preferencesGet (preferencesGet none (Except.error ())).1 (Except.error ()) =
      (some [], Except.ok []) :=
  ⟨rfl, rfl⟩

/-- C7 (amended): an unreadable preferences document makes the first access
fail with a surfaced error, but `loadPreferences` assigns the fresh empty
map before reading, so the failed load leaves an empty map cached and every
subsequent access returns the cached map without consulting the document —
after a failed first load, silently the empty one. -/
theorem preferences_fail_then_cached (r2 : Except Unit String) (m : PrefMap) :
    (preferencesGet none (Except.error ())).2 = Except.error () ∧
    (preferencesGet none (Except.error ())).1 = some [] ∧
    preferencesGet (some m) r2 = (some m, Except.ok m) :=
  ⟨rfl, rfl, rfl⟩

/-- C8: in every upload execution, any process invocation in the event
trace is strictly preceded by the close-serial-monitor command for the
device's port (close-then-invoke ordering). -/
theorem upload_close_before_spawn (env : InvokeEnv) (j : Nat) (cmd : String)
    (args : List String)
    (hj : ((uploadRun env).1)[j]? = some (AppEvent.spawn cmd args)) :
    ∃ i, i < j ∧ ((uploadRun env).1)[i]? = some (AppEvent.closeSerialMonitor env.port) := by
  rcases hb : env.currentBoard with _ | b
  · have h1 : getBoardDescriptorString env.currentBoard =
        (none, [AppEvent.notifyUserError "getBoardDescriptorError"]) := by
      rw [hb]
      rfl
    have htr : (uploadRun env).1 = [AppEvent.notifyUserError "getBoardDescriptorError"] := by
      unfold uploadRun
      rw [h1]
    rw [htr] at hj
    rcases j with _ | j
    · simp at hj
    · simp at hj
  · have hbd : getBoardDescriptorString env.currentBoard =
        (some (boardDescriptorString b), []) := by
      rw [hb]
      rfl
    rcases hsp : env.spawnResult with code | u
    · have htr : (uploadRun env).1 =
          [AppEvent.channelShow, AppEvent.channelStart ("Upload sketch - " ++ env.sketch),
           AppEvent.closeSerialMonitor env.port,
           AppEvent.spawn env.commandPath (uploadArgs env (boardDescriptorString b)),
           AppEvent.channelError ("Exit with code=" ++ toString code ++ env.eol)] := by
        unfold uploadRun
        rw [hbd, hsp]
        rfl
      rw [htr] at hj
      rcases j with _ | _ | _ | j
      · simp at hj
      · simp at hj
      · simp at hj
      · exact ⟨2, by omega, by rw [htr]; rfl⟩
    · have htr : (uploadRun env).1 =
          [AppEvent.channelShow, AppEvent.channelStart ("Upload sketch - " ++ env.sketch),
           AppEvent.closeSerialMonitor env.port,
           AppEvent.spawn env.commandPath (uploadArgs env (boardDescriptorString b)),
           AppEvent.channelEnd ("Uploaded the sketch: " ++ env.sketch ++ env.eol)] := by
        unfold uploadRun
        rw [hbd, hsp]
        rfl
      rw [htr] at hj
      rcases j with _ | _ | _ | j
      · simp at hj
      · simp at hj
      · simp at hj
      · exact ⟨2, by omega, by rw [htr]; rfl⟩

/-- Witness for C8 at a concrete environment whose trace reaches the
process invocation at index 3. -/
theorem upload_close_before_spawn_witness :
    ((uploadRun envOk).1)[3]? = some (AppEvent.spawn "/ide/arduino"
      ["--upload", "--board", "arduino:avr:uno", "--port", "COM3", "/work/app.ino"]) ∧
    ∃ i, i < 3 ∧ ((uploadRun envOk).1)[i]? =
      some (AppEvent.closeSerialMonitor envOk.port) :=
  ⟨rfl, upload_close_before_spawn envOk 3 _ _ rfl⟩

/-- C9 counterexample: with two sections carrying the platform name, the
candidate `"/y"` is merged into the **second** (last) matching section —
the first keeps exactly `["/x"]` — refuting the claim that the first
matching section is the one the candidate paths are merged into.  The
array keeps its length, so no section was created. -/
theorem addLibPath_first_match_cex :
    ((addLibPathDoc (posixCanon "/cwd") "Linux" ["/y"] docAB).configurations.getD []).map
        ConfigSection.includePath = [some ["/x"], some ["/y"]] ∧
    ((addLibPathDoc (posixCanon "/cwd") "Linux" ["/y"] docAB).configurations.getD
        []).length = 2 :=
  ⟨rfl, rfl⟩

/-- C9 (amended): at most one section receives the merge: when sections
with the platform name exist, the **last** matching one receives the
candidate paths (every matching section still has its `browse` forced by
the scan), and no new section is created — the configuration array keeps
its length. -/
theorem addLibPath_last_match_wins (canon : String → String) (p : String) (ps : List String)
    (doc : ConfigDoc) (pre post : List ConfigSection) (s : ConfigSection)
    (hdoc : doc.configurations = some (pre ++ s :: post))
    (hs : s.name = some p) (hpost : ∀ t ∈ post, t.name ≠ some p) :
    addLibPathDoc canon p ps doc =
      { doc with
        configurations := some (scanConfigurations p pre ++
          mergeInto canon ps (applySectionScan p s) :: scanConfigurations p post) } ∧
    ((addLibPathDoc canon p ps doc).configurations.getD []).length =
      (pre ++ s :: post).length := by
  have h1 := addLibPathDoc_matched canon p ps doc pre post s hdoc hs hpost
  refine ⟨h1, ?_⟩
  rw [h1]
  simp [scanConfigurations]

/-- Witness for C9 (amended) on the concrete duplicate-name document. -/
theorem addLibPath_last_match_wins_witness :
    docAB.configurations = some ([sectionA] ++ sectionB :: []) ∧
    addLibPathDoc (posixCanon "/cwd") "Linux" ["/y"] docAB =
      { docAB with
        configurations := some (scanConfigurations "Linux" [sectionA] ++
          mergeInto (posixCanon "/cwd") ["/y"] (applySectionScan "Linux" sectionB) ::
            scanConfigurations "Linux" []) } :=
  ⟨rfl,
    (addLibPath_last_match_wins (posixCanon "/cwd") "Linux" ["/y"] docAB [sectionA] []
      sectionB rfl rfl (fun t ht => absurd ht (List.not_mem_nil t))).1⟩

/-- C10: when the active (last matching) section exists with a missing or
empty `includePath`, reconciliation does not fail: the array is created
holding every candidate's canonical form exactly once, in first-occurrence
order, deduplicated against the entries appended earlier in the same
call. -/
theorem addLibPath_creates_includePath (canon : String → String) (p : String)
    (ps : List String) (doc : ConfigDoc) (pre post : List ConfigSection) (s : ConfigSection)
    (hIdem : ∀ x, canon (canon x) = canon x)
    (hdoc : doc.configurations = some (pre ++ s :: post))
    (hs : s.name = some p) (hpost : ∀ t ∈ post, t.name ≠ some p)
    (hip : s.includePath = none ∨ s.includePath = some []) (hps : ps ≠ []) :
    addLibPathDoc canon p ps doc =
      { doc with
        configurations := some (scanConfigurations p pre ++
          { applySectionScan p s with
            includePath := some (dedupKeepFirst (ps.map canon)) } ::
            scanConfigurations p post) } ∧
    (dedupKeepFirst (ps.map canon)).Nodup ∧
    ∀ c ∈ ps, canon c ∈ dedupKeepFirst (ps.map canon) := by
  rcases ps with _ | ⟨c, cs⟩
  · exact absurd rfl hps
  · have hmerge : mergeLibPaths canon s.includePath (c :: cs) =
        some (dedupKeepFirst ((c :: cs).map canon)) :=
      mergeLibPaths_fresh_eq_dedup canon hIdem c cs s.includePath hip
    refine ⟨?_, foldl_dedupStep_nodup _ [] List.nodup_nil, ?_⟩
    · rw [addLibPathDoc_matched canon p (c :: cs) doc pre post s hdoc hs hpost]
      have hsec : mergeInto canon (c :: cs) (applySectionScan p s) =
          { applySectionScan p s with
            includePath := some (dedupKeepFirst ((c :: cs).map canon)) } := by
        unfold mergeInto
        rw [applySectionScan_includePath, hmerge]
      rw [hsec]
    · intro x hx
      exact foldl_dedupStep_mem _ [] (canon x) (Or.inr (List.mem_map_of_mem canon hx))

/-- Witness for C10: the last matching section of `docAB` has an empty
`includePath`, and two aliased candidates collapse to one entry. -/
theorem addLibPath_creates_includePath_witness :
    (["/y", "/y"] : List String) ≠ [] ∧
    (sectionB.includePath = none ∨ sectionB.includePath = some []) ∧
    addLibPathDoc (fun x : String => x) "Linux" ["/y", "/y"] docAB =
      { docAB with
        configurations := some (scanConfigurations "Linux" [sectionA] ++
          { applySectionScan "Linux" sectionB with
            includePath := some (dedupKeepFirst (["/y", "/y"].map (fun x : String => x))) } ::
            scanConfigurations "Linux" []) } :=
  ⟨by decide, Or.inr rfl,
    (addLibPath_creates_includePath (fun x : String => x) "Linux" ["/y", "/y"] docAB
      [sectionA] [] sectionB (fun _ => rfl) rfl rfl
      (fun t ht => absurd ht (List.not_mem_nil t)) (Or.inr rfl) (by decide)).1⟩

end Arduino
